import Mathlib

/-!
Verification of the record-linkage and deduplication scripts of the
mpds-distinct-phases repository.

The development shallowly embeds:

* the dictionary-lookup path and the inner-join path of
  `matcher_mp_mpds` (scripts/mp_mpds_matcher.py),
* the duplicate grouping of `group_by_phase` / `fetch_duplicates`
  (scripts/helpers.py, scripts/dup_mpds.py) and of `find_duplicates_mp`
  (scripts/dup_mp.py),
* the partitioned reference fetch `mpds_downloader` with its request log
  and its rate-limit parameter (scripts/mp_mpds_matcher.py), and
* the snapshot-caching behaviour of `mp_downloader` and
  `id_mp_mpds_matcher` (scripts/mp_mpds_matcher.py), with on-disk
  artifacts modelled as an explicit state and external requests counted.

External collaborators (the two database clients, file parsing) are
modelled as oracles/parameters; everything the scripts compute is
translated directly from the Python source.
-/

namespace DistinctPhases

/-- One reference-catalog row of the JSON phase-id dump consumed by the
dictionary path of `matcher_mp_mpds`: the full and the short formula
variant, the space group `spg`, and the raw id string (of which the
segment after the last `/` is kept). -/
structure RefRow where
  full : String
  short : String
  spg : Int
  id : String
deriving DecidableEq

/-- One primary-catalog record handed to `matcher_mp_mpds`: the formula
`formulae[i]`, the space group `int(sg[i])` (already converted to an
integer), and the identifier `mp_ids[i]`. -/
structure Prim where
  formula : String
  sg : Int
  mp_id : String
deriving DecidableEq

/-- One emitted match row `[phase_id, mp_ids[i], formula, symmetry]`. -/
structure Entry where
  phase_id : String
  identifier : String
  formula : String
  symmetry : Int
deriving DecidableEq

abbrev MKey := String × Int

/-- Association-list lookup, first binding wins (a Python dict lookup,
for dictionaries that are only ever extended at unused keys). -/
def alookup {κ σ : Type} [DecidableEq κ] : List (κ × σ) → κ → Option σ
  | [], _ => none
  | (k', v) :: rest, k => if k' = k then some v else alookup rest k

abbrev Dict := List (MKey × String)

/-- Character loop computing the segment after the last `/`. -/
def idLastAux : List Char → List Char → List Char
  | [], cur => cur
  | c :: cs, cur => if c = '/' then idLastAux cs [] else idLastAux cs (cur ++ [c])

/-- Last segment of `s.split("/")`. -/
def idLast (s : String) : String := String.mk (idLastAux s.data [])

/-- The value stored for a reference row: `row["id"].split("/")[-1]`. -/
def refId (r : RefRow) : String := idLast r.id

/-- Insert a binding only when the key is absent
(`if key not in the_dict: the_dict[key] = value`). -/
def insertIfAbsent (d : Dict) (k : MKey) (v : String) : Dict :=
  match alookup d k with
  | some _ => d
  | none => d ++ [(k, v)]

/-- The single pass over the reference rows building the full-formula
dictionary and the short-formula dictionary of `matcher_mp_mpds`. -/
def buildDicts : List RefRow → Dict × Dict → Dict × Dict
  | [], acc => acc
  | r :: rs, acc =>
      buildDicts rs
        (insertIfAbsent acc.1 (r.full, r.spg) (refId r),
         insertIfAbsent acc.2 (r.short, r.spg) (refId r))

/-- The row `[rid, mp_ids[i], key[0], key[1]]` appended by the search loop. -/
def mkEntry (rid : String) (p : Prim) : Entry :=
  ⟨rid, p.mp_id, p.formula, p.sg⟩

/-- One iteration of the search loop of `matcher_mp_mpds`: look the key up
in the full-formula dictionary and append the row when it is new,
otherwise (`elif`) do the same with the short-formula dictionary.  In the
source `key_full` and `key_short` are the same pair
`(formulae[i], int(sg[i]))`. -/
def searchStep (fd sd : Dict) (acc : List Entry) (p : Prim) : List Entry :=
  match alookup fd (p.formula, p.sg) with
  | some rid =>
      if mkEntry rid p ∈ acc then
        match alookup sd (p.formula, p.sg) with
        | some rid2 =>
            if mkEntry rid2 p ∈ acc then acc else acc ++ [mkEntry rid2 p]
        | none => acc
      else acc ++ [mkEntry rid p]
  | none =>
      match alookup sd (p.formula, p.sg) with
      | some rid2 =>
          if mkEntry rid2 p ∈ acc then acc else acc ++ [mkEntry rid2 p]
      | none => acc

/-- The search loop `for i in range(len(formulae))`. -/
def searchAll (fd sd : Dict) : List Entry → List Prim → List Entry
  | acc, [] => acc
  | acc, p :: ps => searchAll fd sd (searchStep fd sd acc p) ps

/-- Dictionary-lookup path of `matcher_mp_mpds` (the `if mpds_id_path`
branch): build the two dictionaries, then run the search loop. -/
def matcher_dict (refs : List RefRow) (prims : List Prim) : List Entry :=
  searchAll (buildDicts refs ([], [])).1 (buildDicts refs ([], [])).2 [] prims

section MatcherLemmas

lemma alookup_append {κ σ : Type} [DecidableEq κ]
    (d : List (κ × σ)) (k0 k : κ) (v0 : σ) :
    alookup (d ++ [(k0, v0)]) k
      = match alookup d k with
        | some v => some v
        | none => if k0 = k then some v0 else none := by
  induction d with
  | nil => simp [alookup]
  | cons a rest ih =>
      obtain ⟨ka, va⟩ := a
      by_cases h : ka = k
      · simp [alookup, h]
      · simpa [alookup, h] using ih

lemma alookup_insertIfAbsent (d : Dict) (k0 k : MKey) (v0 : String) :
    alookup (insertIfAbsent d k0 v0) k
      = match alookup d k with
        | some v => some v
        | none => if k0 = k then some v0 else none := by
  unfold insertIfAbsent
  cases h0 : alookup d k0 with
  | some v =>
      cases h : alookup d k with
      | some w => simp [h]
      | none =>
          simp only [h]
          by_cases hk : k0 = k
          · subst hk; rw [h0] at h; exact absurd h (by simp)
          · simp [hk]
  | none => rw [alookup_append]; cases h : alookup d k <;> simp [h]

lemma buildDicts_fst :
    ∀ (refs : List RefRow) (fd sd : Dict) (k : MKey),
    alookup (buildDicts refs (fd, sd)).1 k
      = match alookup fd k with
        | some v => some v
        | none =>
            (refs.find? fun r => decide ((r.full, r.spg) = k)).map refId := by
  intro refs
  induction refs with
  | nil => intro fd sd k; cases h : alookup fd k <;> simp [buildDicts, h]
  | cons r rs ih =>
      intro fd sd k
      show alookup (buildDicts rs (_, _)).1 k = _
      rw [ih]
      rw [alookup_insertIfAbsent]
      cases h : alookup fd k with
      | some v => simp
      | none =>
          by_cases hk : (r.full, r.spg) = k
          · simp [hk, List.find?_cons]
          · simp [hk, List.find?_cons]

lemma buildDicts_snd :
    ∀ (refs : List RefRow) (fd sd : Dict) (k : MKey),
    alookup (buildDicts refs (fd, sd)).2 k
      = match alookup sd k with
        | some v => some v
        | none =>
            (refs.find? fun r => decide ((r.short, r.spg) = k)).map refId := by
  intro refs
  induction refs with
  | nil => intro fd sd k; cases h : alookup sd k <;> simp [buildDicts, h]
  | cons r rs ih =>
      intro fd sd k
      show alookup (buildDicts rs (_, _)).2 k = _
      rw [ih]
      rw [alookup_insertIfAbsent]
      cases h : alookup sd k with
      | some v => simp
      | none =>
          by_cases hk : (r.short, r.spg) = k
          · simp [hk, List.find?_cons]
          · simp [hk, List.find?_cons]

lemma nodup_append_single {α : Type} {l : List α} {a : α}
    (h : l.Nodup) (ha : a ∉ l) : (l ++ [a]).Nodup := by
  simp [List.nodup_append, h, ha]

lemma searchStep_nodup {fd sd : Dict} {acc : List Entry} {p : Prim}
    (h : acc.Nodup) : (searchStep fd sd acc p).Nodup := by
  unfold searchStep
  cases alookup fd (p.formula, p.sg) with
  | some rid =>
      by_cases hm : mkEntry rid p ∈ acc
      · simp only [hm, if_pos]
        cases alookup sd (p.formula, p.sg) with
        | some rid2 =>
            by_cases hm2 : mkEntry rid2 p ∈ acc
            · simpa [hm2]
            · simp only [hm2, if_neg, not_false_iff]
              exact nodup_append_single h hm2
        | none => exact h
      · simp only [hm, if_neg, not_false_iff]
        exact nodup_append_single h hm
  | none =>
      cases alookup sd (p.formula, p.sg) with
      | some rid2 =>
          by_cases hm2 : mkEntry rid2 p ∈ acc
          · simpa [hm2]
          · simp only [hm2, if_neg, not_false_iff]
            exact nodup_append_single h hm2
      | none => exact h

lemma searchAll_nodup {fd sd : Dict} :
    ∀ (ps : List Prim) (acc : List Entry), acc.Nodup →
      (searchAll fd sd acc ps).Nodup := by
  intro ps
  induction ps with
  | nil => intro acc h; exact h
  | cons p ps ih => intro acc h; exact ih _ (searchStep_nodup h)

lemma matcher_dict_nodup (refs : List RefRow) (prims : List Prim) :
    (matcher_dict refs prims).Nodup :=
  searchAll_nodup prims [] List.nodup_nil

end MatcherLemmas

/-- Claim C1, as stated, is false: the search loop de-duplicates on the
whole row `[phase_id, mp_id, formula, symmetry]`, not on the pair
`(phase_id, mp_id)`.  A reference row whose full formula `A` and short
formula `B` differ yields, for two primary records `("A",1,"P1")` and
`("B",1,"P1")`, two distinct output rows both carrying the pair
`("R1", "P1")`. -/
theorem C1_counterexample :
    (matcher_dict [⟨"A", "B", 1, "x/R1"⟩]
        [⟨"A", 1, "P1"⟩, ⟨"B", 1, "P1"⟩]).map
        (fun e => (e.phase_id, e.identifier))
      = [("R1", "P1"), ("R1", "P1")] := by decide

/-- Claim C1 amended: the matcher de-duplicates on the whole emitted row:
for every reference record list and primary record list the emitted list
of rows `(phase_id, identifier, formula, symmetry)` contains no two equal
rows; two rows may still agree on `(phase_id, identifier)` alone when
their formula or space group differ. -/
theorem C1_row_dedup (refs : List RefRow) (prims : List Prim) :
    (matcher_dict refs prims).Nodup :=
  matcher_dict_nodup refs prims

/-- Claim C3: for every primary record the search loop first looks its
`(formula, space_group)` key up in the full-formula dictionary, recording
the row when it is not already present; only otherwise does it consult
the short-formula dictionary under the same not-already-present check; a
record found in neither dictionary leaves the accumulator unchanged (and
the step is a total function, so no error is possible); and each step
appends at most one row. -/
theorem C3_lookup_order (fd sd : Dict) (acc : List Entry) (p : Prim) :
    (alookup fd (p.formula, p.sg) = none →
      alookup sd (p.formula, p.sg) = none →
      searchStep fd sd acc p = acc)
  ∧ (∀ rid, alookup fd (p.formula, p.sg) = some rid →
      mkEntry rid p ∉ acc →
      searchStep fd sd acc p = acc ++ [mkEntry rid p])
  ∧ (∀ rid, alookup sd (p.formula, p.sg) = some rid →
      mkEntry rid p ∉ acc →
      (alookup fd (p.formula, p.sg) = none
        ∨ ∃ rid0, alookup fd (p.formula, p.sg) = some rid0
            ∧ mkEntry rid0 p ∈ acc) →
      searchStep fd sd acc p = acc ++ [mkEntry rid p])
  ∧ (searchStep fd sd acc p = acc
      ∨ ∃ e, searchStep fd sd acc p = acc ++ [e]) := by
  refine ⟨?_, ?_, ?_, ?_⟩
  · intro hf hs; simp [searchStep, hf, hs]
  · intro rid hf hm; simp [searchStep, hf, hm]
  · intro rid hs hm hf
    rcases hf with hf | ⟨rid0, hf0, hm0⟩
    · simp [searchStep, hf, hs, hm]
    · simp [searchStep, hf0, hm0, hs, hm]
  · unfold searchStep
    cases alookup fd (p.formula, p.sg) with
    | some rid =>
        by_cases hm : mkEntry rid p ∈ acc
        · simp only [hm, if_pos]
          cases alookup sd (p.formula, p.sg) with
          | some rid2 =>
              by_cases hm2 : mkEntry rid2 p ∈ acc
              · left; simp [hm2]
              · right; exact ⟨mkEntry rid2 p, by simp [hm2]⟩
          | none => left; rfl
        · right; exact ⟨mkEntry rid p, by simp [hm]⟩
    | none =>
        cases alookup sd (p.formula, p.sg) with
        | some rid2 =>
            by_cases hm2 : mkEntry rid2 p ∈ acc
            · left; simp [hm2]
            · right; exact ⟨mkEntry rid2 p, by simp [hm2]⟩
        | none => left; rfl

/-- Witness for C3: a dictionary binding `("A", 1) ↦ "R1"` and the primary
record `("A", 1, "P1")` produce exactly the appended full-formula row. -/
theorem C3_lookup_order_witness :
    searchStep [(("A", 1), "R1")] [] [] ⟨"A", 1, "P1"⟩
      = [⟨"R1", "P1", "A", 1⟩] := by
  have h := (C3_lookup_order [(("A", 1), "R1")] [] [] ⟨"A", 1, "P1"⟩).2.1
  exact h "R1" (by decide) (by decide)

/-- Claim C4: in both dictionaries built by `matcher_mp_mpds` the first
reference record (in input iteration order) whose key equals a given key
determines that key's binding, and every later record with the same key
is ignored for that dictionary: each lookup equals `find?` over the
input order. -/
theorem C4_first_wins (refs : List RefRow) (k : MKey) :
    alookup (buildDicts refs ([], [])).1 k
      = (refs.find? fun r => decide ((r.full, r.spg) = k)).map refId
  ∧ alookup (buildDicts refs ([], [])).2 k
      = (refs.find? fun r => decide ((r.short, r.spg) = k)).map refId := by
  constructor
  · rw [buildDicts_fst]; simp [alookup]
  · rw [buildDicts_snd]; simp [alookup]

/-- One candidate output row of the inner-join path of `matcher_mp_mpds`
(`mpds_df.join(mp_df, on=["formula", "symmetry"], how="inner")`): a pair
of a reference row and a primary row joins when formula and space group
agree, and yields the columns `phase_id, ID_mp, formula, symmetry`. -/
def joinRow (r : RefRow) (p : Prim) : Option Entry :=
  if r.full = p.formula ∧ r.spg = p.sg then
    some ⟨refId r, p.mp_id, r.full, r.spg⟩
  else none

/-- Inner-join formulation of `matcher_mp_mpds` (the `else` branch): all
matching reference/primary pairs on the `(formula, symmetry)` key. -/
def innerJoin (refs : List RefRow) (prims : List Prim) : List Entry :=
  refs.flatMap fun r => prims.filterMap fun p => joinRow r p

section JoinLemmas

lemma mem_innerJoin {refs : List RefRow} {prims : List Prim} {e : Entry} :
    e ∈ innerJoin refs prims
      ↔ ∃ r ∈ refs, ∃ p ∈ prims, joinRow r p = some e := by
  simp [innerJoin, List.mem_flatMap, List.mem_filterMap]

lemma mem_searchStep {fd sd : Dict} {acc : List Entry} {p : Prim} {e : Entry}
    (h : e ∈ searchStep fd sd acc p) :
    e ∈ acc ∨ ∃ rid,
      (alookup fd (p.formula, p.sg) = some rid
        ∨ alookup sd (p.formula, p.sg) = some rid) ∧ e = mkEntry rid p := by
  unfold searchStep at h
  split at h
  next rid hf =>
    by_cases hm : mkEntry rid p ∈ acc
    · rw [if_pos hm] at h
      split at h
      next rid2 hs =>
        by_cases hm2 : mkEntry rid2 p ∈ acc
        · rw [if_pos hm2] at h; exact Or.inl h
        · rw [if_neg hm2] at h
          rcases List.mem_append.1 h with h | h
          · exact Or.inl h
          · exact Or.inr ⟨rid2, Or.inr hs, List.mem_singleton.1 h⟩
      next => exact Or.inl h
    · rw [if_neg hm] at h
      rcases List.mem_append.1 h with h | h
      · exact Or.inl h
      · exact Or.inr ⟨rid, Or.inl hf, List.mem_singleton.1 h⟩
  next hf =>
    split at h
    next rid2 hs =>
      by_cases hm2 : mkEntry rid2 p ∈ acc
      · rw [if_pos hm2] at h; exact Or.inl h
      · rw [if_neg hm2] at h
        rcases List.mem_append.1 h with h | h
        · exact Or.inl h
        · exact Or.inr ⟨rid2, Or.inr hs, List.mem_singleton.1 h⟩
    next => exact Or.inl h

lemma mem_searchAll {fd sd : Dict} :
    ∀ (ps : List Prim) (acc : List Entry) (e : Entry),
    e ∈ searchAll fd sd acc ps →
    e ∈ acc ∨ ∃ p ∈ ps, ∃ rid,
      (alookup fd (p.formula, p.sg) = some rid
        ∨ alookup sd (p.formula, p.sg) = some rid) ∧ e = mkEntry rid p := by
  intro ps
  induction ps with
  | nil => intro acc e h; exact Or.inl h
  | cons p ps ih =>
      intro acc e h
      rcases ih _ e h with h1 | ⟨q, hq, rid, hl, he⟩
      · rcases mem_searchStep h1 with h2 | ⟨rid, hl, he⟩
        · exact Or.inl h2
        · exact Or.inr ⟨p, List.mem_cons_self p ps, rid, hl, he⟩
      · exact Or.inr ⟨q, List.mem_cons_of_mem p hq, rid, hl, he⟩

lemma fst_lookup_mem {refs : List RefRow} {k : MKey} {rid : String}
    (h : alookup (buildDicts refs ([], [])).1 k = some rid) :
    ∃ r ∈ refs, (r.full, r.spg) = k ∧ refId r = rid := by
  rw [buildDicts_fst] at h
  simp only [alookup] at h
  rcases Option.map_eq_some'.1 h with ⟨r, hfind, hrid⟩
  have hp := List.find?_some hfind
  simp only [decide_eq_true_eq] at hp
  exact ⟨r, List.mem_of_find?_eq_some hfind, hp, hrid⟩

lemma snd_lookup_mem {refs : List RefRow} {k : MKey} {rid : String}
    (h : alookup (buildDicts refs ([], [])).2 k = some rid) :
    ∃ r ∈ refs, (r.short, r.spg) = k ∧ refId r = rid := by
  rw [buildDicts_snd] at h
  simp only [alookup] at h
  rcases Option.map_eq_some'.1 h with ⟨r, hfind, hrid⟩
  have hp := List.find?_some hfind
  simp only [decide_eq_true_eq] at hp
  exact ⟨r, List.mem_of_find?_eq_some hfind, hp, hrid⟩

lemma matcher_subset_join {refs : List RefRow} {prims : List Prim}
    (hfs : ∀ r ∈ refs, r.full = r.short) :
    ∀ e ∈ matcher_dict refs prims, e ∈ innerJoin refs prims := by
  intro e he
  rcases mem_searchAll prims [] e he with h | ⟨p, hp, rid, hl, he'⟩
  · exact absurd h (List.not_mem_nil e)
  subst he'
  rcases hl with hf | hs
  · rcases fst_lookup_mem hf with ⟨r, hr, hk, hrid⟩
    have h1 : r.full = p.formula := congrArg Prod.fst hk
    have h2 : r.spg = p.sg := congrArg Prod.snd hk
    refine mem_innerJoin.2 ⟨r, hr, p, hp, ?_⟩
    simp [joinRow, h1, h2, mkEntry, hrid]
  · rcases snd_lookup_mem hs with ⟨r, hr, hk, hrid⟩
    have h1 : r.short = p.formula := congrArg Prod.fst hk
    have h2 : r.spg = p.sg := congrArg Prod.snd hk
    have h3 : r.full = p.formula := (hfs r hr).trans h1
    refine mem_innerJoin.2 ⟨r, hr, p, hp, ?_⟩
    simp [joinRow, h3, h2, mkEntry, hrid]

lemma searchStep_superset {fd sd : Dict} {acc : List Entry} {p : Prim} :
    acc ⊆ searchStep fd sd acc p := by
  intro a ha
  unfold searchStep
  cases alookup fd (p.formula, p.sg) with
  | some rid =>
      by_cases hm : mkEntry rid p ∈ acc
      · simp only [hm, if_pos]
        cases alookup sd (p.formula, p.sg) with
        | some rid2 =>
            by_cases hm2 : mkEntry rid2 p ∈ acc
            · simpa [hm2]
            · simp only [hm2, if_neg, not_false_iff]
              exact List.mem_append_left _ ha
        | none => exact ha
      · simp only [hm, if_neg, not_false_iff]
        exact List.mem_append_left _ ha
  | none =>
      cases alookup sd (p.formula, p.sg) with
      | some rid2 =>
          by_cases hm2 : mkEntry rid2 p ∈ acc
          · simpa [hm2]
          · simp only [hm2, if_neg, not_false_iff]
            exact List.mem_append_left _ ha
      | none => exact ha

lemma searchAll_superset {fd sd : Dict} :
    ∀ (ps : List Prim) (acc : List Entry), acc ⊆ searchAll fd sd acc ps := by
  intro ps
  induction ps with
  | nil => intro acc a ha; exact ha
  | cons p ps ih =>
      intro acc a ha
      exact ih _ (searchStep_superset ha)

lemma searchStep_mem_full {fd sd : Dict} {acc : List Entry} {p : Prim}
    {rid : String} (hf : alookup fd (p.formula, p.sg) = some rid) :
    mkEntry rid p ∈ searchStep fd sd acc p := by
  simp only [searchStep, hf]
  by_cases hm : mkEntry rid p ∈ acc
  · rw [if_pos hm]
    cases alookup sd (p.formula, p.sg) with
    | some rid2 =>
        by_cases hm2 : mkEntry rid2 p ∈ acc
        · simpa [hm2]
        · simp only [hm2, if_neg, not_false_iff]
          exact List.mem_append_left _ hm
    | none => exact hm
  · rw [if_neg hm]
    exact List.mem_append_right _ (List.mem_singleton_self _)

lemma searchAll_complete {fd sd : Dict} :
    ∀ (ps : List Prim) (acc : List Entry) (p : Prim) (rid : String),
    p ∈ ps → alookup fd (p.formula, p.sg) = some rid →
    mkEntry rid p ∈ searchAll fd sd acc ps := by
  intro ps
  induction ps with
  | nil => intro acc p rid hp; exact absurd hp (List.not_mem_nil p)
  | cons q ps ih =>
      intro acc p rid hp hf
      rcases List.mem_cons.1 hp with h | h
      · subst h
        exact searchAll_superset ps _ (searchStep_mem_full hf)
      · exact ih _ p rid h hf

lemma fst_lookup_of_nodup {refs : List RefRow}
    (hk : (refs.map fun r => (r.full, r.spg)).Nodup)
    {r : RefRow} (hr : r ∈ refs) :
    alookup (buildDicts refs ([], [])).1 (r.full, r.spg) = some (refId r) := by
  rw [buildDicts_fst]
  simp only [alookup]
  cases hfind : refs.find? fun r' => decide ((r'.full, r'.spg) = (r.full, r.spg)) with
  | none =>
      exact absurd (List.find?_eq_none.1 hfind r hr) (by simp)
  | some r' =>
      have h1 : r' ∈ refs := List.mem_of_find?_eq_some hfind
      have h2 := List.find?_some hfind
      simp only [decide_eq_true_eq] at h2
      have h3 : r' = r :=
        List.inj_on_of_nodup_map hk h1 hr h2
      subst h3
      rfl

lemma join_subset_matcher {refs : List RefRow} {prims : List Prim}
    (hk : (refs.map fun r => (r.full, r.spg)).Nodup) :
    ∀ e ∈ innerJoin refs prims, e ∈ matcher_dict refs prims := by
  intro e he
  rcases mem_innerJoin.1 he with ⟨r, hr, p, hp, hjoin⟩
  unfold joinRow at hjoin
  by_cases hc : r.full = p.formula ∧ r.spg = p.sg
  · rw [if_pos hc] at hjoin
    have he' : e = mkEntry (refId r) p := by
      rw [← Option.some_inj.1 hjoin]
      simp [mkEntry, hc.1, hc.2]
    subst he'
    have hl := fst_lookup_of_nodup hk hr
    rw [hc.1, hc.2] at hl
    exact searchAll_complete prims [] p (refId r) hp hl
  · rw [if_neg hc] at hjoin
    exact absurd hjoin (by simp)

lemma length_le_dedup {α : Type} [DecidableEq α] {l1 l2 : List α}
    (h1 : l1.Nodup) (hsub : l1 ⊆ l2) : l1.length ≤ l2.dedup.length := by
  rw [← List.toFinset_card_of_nodup h1, ← List.card_toFinset]
  exact Finset.card_le_card fun x hx =>
    List.mem_toFinset.2 (hsub (List.mem_toFinset.1 hx))

lemma length_eq_dedup {α : Type} [DecidableEq α] {l1 l2 : List α}
    (h1 : l1.Nodup) (hsub : l1 ⊆ l2) (hsup : l2 ⊆ l1) :
    l1.length = l2.dedup.length := by
  rw [← List.toFinset_card_of_nodup h1, ← List.card_toFinset]
  congr 1
  apply Finset.Subset.antisymm
  · exact fun x hx => List.mem_toFinset.2 (hsub (List.mem_toFinset.1 hx))
  · exact fun x hx => List.mem_toFinset.2 (hsup (List.mem_toFinset.1 hx))

end JoinLemmas

/-- Claim C5: at a single key granularity (every reference row's full and
short formulas coincide, which is how the inner-join path sees the
reference catalog, whose CSV carries one formula column) the
dictionary-lookup output never has more rows than the inner join after
removal of exact-duplicate rows, and when no two reference records share
a `(formula, space_group)` key the two row counts are equal. -/
theorem C5_lookup_vs_join (refs : List RefRow) (prims : List Prim)
    (hfs : ∀ r ∈ refs, r.full = r.short) :
    (matcher_dict refs prims).length ≤ ((innerJoin refs prims).dedup).length
  ∧ ((refs.map fun r => (r.full, r.spg)).Nodup →
      (matcher_dict refs prims).length
        = ((innerJoin refs prims).dedup).length) := by
  constructor
  · exact length_le_dedup (matcher_dict_nodup refs prims)
      (matcher_subset_join hfs)
  · intro hk
    exact length_eq_dedup (matcher_dict_nodup refs prims)
      (matcher_subset_join hfs) (join_subset_matcher hk)

/-- Witness for C5: on one reference row `("AB2", spg 14, id "x/R1")` and
one primary row `("AB2", 14, "P1")` the two formulations agree exactly. -/
theorem C5_lookup_vs_join_witness :
    (matcher_dict [⟨"AB2", "AB2", 14, "x/R1"⟩] [⟨"AB2", 14, "P1"⟩]).length
      = ((innerJoin [⟨"AB2", "AB2", 14, "x/R1"⟩] [⟨"AB2", 14, "P1"⟩]).dedup).length :=
  (C5_lookup_vs_join [⟨"AB2", "AB2", 14, "x/R1"⟩] [⟨"AB2", 14, "P1"⟩]
    (by decide)).2 (by decide)

/-- One line of the jsonl dump consumed by `find_duplicates_mpds`; the
`phase` and `phase_id` keys may be missing (`none`). -/
structure PEntry where
  phase : Option String
  phase_id : Option Int
deriving DecidableEq

/-- The `defaultdict(set)` of `group_by_phase`, with Python 3.7+ dict
insertion order made explicit. -/
abbrev Grouped := List (String × Finset Int)

/-- `grouped[entry["phase"]].add(entry["phase_id"])` on a `defaultdict(set)`. -/
def addToGroup : Grouped → String → Int → Grouped
  | [], p, v => [(p, {v})]
  | (k', s) :: rest, p, v =>
      if k' = p then (k', insert v s) :: rest
      else (k', s) :: addToGroup rest p v

/-- The entry loop of `group_by_phase`: an entry is used only when both
the `phase` and the `phase_id` keys are present. -/
def gba : Grouped → List PEntry → Grouped
  | g, [] => g
  | g, e :: rest =>
      match e.phase, e.phase_id with
      | some p, some v => gba (addToGroup g p v) rest
      | _, _ => gba g rest

/-- `group_by_phase` of scripts/helpers.py and scripts/dup_mpds.py. -/
def group_by_phase (data : List PEntry) : Grouped := gba [] data

/-- `fetch_duplicates`: keep the groups whose identifier set has more
than one element. -/
def fetch_duplicates (g : Grouped) : Grouped :=
  g.filter fun pr => decide (1 < pr.2.card)

/-- `find_duplicates_mpds` between reading the input and serializing the
output: group by phase, then keep the duplicates. -/
def find_duplicates_mpds (data : List PEntry) : Grouped :=
  fetch_duplicates (group_by_phase data)

/-- Distinct identifiers carried by complete entries of a given phase. -/
def idsOf : List PEntry → String → Finset Int
  | [], _ => ∅
  | e :: rest, k =>
      match e.phase, e.phase_id with
      | some p, some v =>
          if p = k then insert v (idsOf rest k) else idsOf rest k
      | _, _ => idsOf rest k

/-- Does some complete entry carry the given phase? -/
def hasPhase : List PEntry → String → Bool
  | [], _ => false
  | e :: rest, k =>
      match e.phase, e.phase_id with
      | some p, some _ => decide (p = k) || hasPhase rest k
      | _, _ => hasPhase rest k

/-- One row of the JSON table consumed by `find_duplicates_mp`. -/
structure MpRow where
  formula : String
  symmetry : String
  pearson : String
  identifier : String
deriving DecidableEq

abbrev MpKey := String × String × String

/-- The `group_by(["formula", "symmetry", "pearson"])` key of a row. -/
def mpKey (r : MpRow) : MpKey := (r.formula, r.symmetry, r.pearson)

/-- Collect one identifier into the group of its key, keeping
multiplicity (`agg(pl.col("identifier"))` collects every value). -/
def addToGroupMp :
    List (MpKey × List String) → MpKey → String → List (MpKey × List String)
  | [], k, v => [(k, [v])]
  | (k', vs) :: rest, k, v =>
      if k' = k then (k', vs ++ [v]) :: rest
      else (k', vs) :: addToGroupMp rest k v

/-- The grouping pass of `find_duplicates_mp`. -/
def gmp : List (MpKey × List String) → List MpRow → List (MpKey × List String)
  | g, [] => g
  | g, r :: rest => gmp (addToGroupMp g (mpKey r) r.identifier) rest

def group_by_mp (rows : List MpRow) : List (MpKey × List String) :=
  gmp [] rows

/-- `find_duplicates_mp` of scripts/dup_mp.py (and its copy in
scripts/helpers.py): group by `(formula, symmetry, pearson)`, aggregate
the identifier column into a list, keep the groups whose list is longer
than one, and add the list length as a `count` column. -/
def find_duplicates_mp (rows : List MpRow) : List (MpKey × List String × Nat) :=
  ((group_by_mp rows).filter fun pr => decide (1 < pr.2.length)).map
    fun pr => (pr.1, pr.2, pr.2.length)

/-- Identifiers of the rows carrying a given key, in order and with
multiplicity. -/
def ridsOf : List MpRow → MpKey → List String
  | [], _ => []
  | r :: rest, k =>
      if mpKey r = k then r.identifier :: ridsOf rest k else ridsOf rest k

/-- Does some row carry the given key? -/
def hasKeyMp : List MpRow → MpKey → Bool
  | [], _ => false
  | r :: rest, k => decide (mpKey r = k) || hasKeyMp rest k

section GroupingLemmas

lemma alookup_addToGroup (g : Grouped) (p k : String) (v : Int) :
    alookup (addToGroup g p v) k
      = if p = k then some (insert v ((alookup g p).getD ∅))
        else alookup g k := by
  induction g with
  | nil =>
      by_cases h : p = k <;> simp [addToGroup, alookup, h]
  | cons a rest ih =>
      obtain ⟨k', s⟩ := a
      by_cases h1 : k' = p
      · subst h1
        by_cases h2 : k' = k
        · subst h2; simp [addToGroup, alookup]
        · simp [addToGroup, alookup, h2]
      · by_cases h2 : k' = k
        · subst h2
          have hp : ¬ p = k' := fun h => h1 h.symm
          simp [addToGroup, alookup, h1, hp]
        · simp [addToGroup, alookup, h1, h2, ih]

lemma alookup_gba :
    ∀ (data : List PEntry) (g : Grouped) (k : String),
    alookup (gba g data) k
      = if hasPhase data k || (alookup g k).isSome
        then some (((alookup g k).getD ∅) ∪ idsOf data k)
        else none := by
  intro data
  induction data with
  | nil =>
      intro g k
      cases h : alookup g k <;> simp [gba, hasPhase, idsOf, h]
  | cons e rest ih =>
      intro g k
      cases hp : e.phase with
      | none => simp [gba, hasPhase, idsOf, hp, ih]
      | some p =>
          cases hv : e.phase_id with
          | none => simp [gba, hasPhase, idsOf, hp, hv, ih]
          | some v =>
              simp only [gba, hasPhase, idsOf, hp, hv]
              rw [ih]
              rw [alookup_addToGroup]
              by_cases hpk : p = k
              · subst hpk
                simp [Finset.insert_union]
              · simp [hpk]

lemma keys_addToGroup_subset (g : Grouped) (p k : String) (v : Int) :
    k ∈ (addToGroup g p v).map Prod.fst → k = p ∨ k ∈ g.map Prod.fst := by
  induction g with
  | nil => intro h; simpa [addToGroup] using h
  | cons a rest ih =>
      obtain ⟨k', s⟩ := a
      by_cases h1 : k' = p
      · intro h
        subst h1
        simp [addToGroup] at h ⊢
        tauto
      · intro h
        simp only [addToGroup, h1, if_neg, not_false_iff, List.map_cons,
          List.mem_cons] at h
        rcases h with h | h
        · exact Or.inr (by simp [h])
        · rcases ih h with h2 | h2
          · exact Or.inl h2
          · exact Or.inr (by simp [h2])

lemma keysNodup_addToGroup {g : Grouped} (h : (g.map Prod.fst).Nodup)
    (p : String) (v : Int) : ((addToGroup g p v).map Prod.fst).Nodup := by
  induction g with
  | nil => simp [addToGroup]
  | cons a rest ih =>
      obtain ⟨k', s⟩ := a
      simp only [List.map_cons, List.nodup_cons] at h
      by_cases h1 : k' = p
      · simpa [addToGroup, h1, List.nodup_cons] using h
      · simp only [addToGroup, h1, if_neg, not_false_iff, List.map_cons,
          List.nodup_cons]
        refine ⟨fun hm => ?_, ih h.2⟩
        rcases keys_addToGroup_subset rest p k' v hm with h2 | h2
        · exact h1 h2
        · exact h.1 h2

lemma keysNodup_gba :
    ∀ (data : List PEntry) (g : Grouped), (g.map Prod.fst).Nodup →
      ((gba g data).map Prod.fst).Nodup := by
  intro data
  induction data with
  | nil => intro g h; exact h
  | cons e rest ih =>
      intro g h
      cases hp : e.phase with
      | none => simpa [gba, hp] using ih g h
      | some p =>
          cases hv : e.phase_id with
          | none => simpa [gba, hp, hv] using ih g h
          | some v =>
              simpa [gba, hp, hv] using ih _ (keysNodup_addToGroup h p v)

lemma mem_of_alookup {κ σ : Type} [DecidableEq κ]
    {g : List (κ × σ)} {k : κ} {s : σ}
    (h : alookup g k = some s) : (k, s) ∈ g := by
  induction g with
  | nil => simp [alookup] at h
  | cons a rest ih =>
      obtain ⟨k', v⟩ := a
      by_cases h1 : k' = k
      · subst h1
        have h2 : v = s := by simpa [alookup] using h
        subst h2
        exact List.mem_cons_self _ _
      · simp only [alookup, h1, if_neg, not_false_iff] at h
        exact List.mem_cons_of_mem _ (ih h)

lemma alookup_of_mem {κ σ : Type} [DecidableEq κ]
    {g : List (κ × σ)} (hnd : (g.map Prod.fst).Nodup) {k : κ} {s : σ}
    (hm : (k, s) ∈ g) : alookup g k = some s := by
  induction g with
  | nil => simp at hm
  | cons a rest ih =>
      obtain ⟨k', v⟩ := a
      simp only [List.map_cons, List.nodup_cons] at hnd
      rcases List.mem_cons.1 hm with h | h
      · obtain ⟨h1, h2⟩ := Prod.mk.injEq .. ▸ h
        · subst h1; subst h2; simp [alookup]
      · by_cases h1 : k' = k
        · subst h1
          exact absurd (by simpa using List.mem_map_of_mem Prod.fst h) hnd.1
        · simp only [alookup, h1, if_neg, not_false_iff]
          exact ih hnd.2 h

lemma hasPhase_false_idsOf :
    ∀ (data : List PEntry) (k : String),
    hasPhase data k = false → idsOf data k = ∅ := by
  intro data
  induction data with
  | nil => intro k _; rfl
  | cons e rest ih =>
      intro k h
      cases hp : e.phase with
      | none => simpa [idsOf, hp] using ih k (by simpa [hasPhase, hp] using h)
      | some p =>
          cases hv : e.phase_id with
          | none =>
              simpa [idsOf, hp, hv] using ih k (by simpa [hasPhase, hp, hv] using h)
          | some v =>
              simp only [hasPhase, hp, hv, Bool.or_eq_false_iff,
                decide_eq_false_iff_not] at h
              simp [idsOf, hp, hv, h.1, ih k h.2]

lemma alookup_group_by_phase (data : List PEntry) (k : String) :
    alookup (group_by_phase data) k
      = if hasPhase data k then some (idsOf data k) else none := by
  unfold group_by_phase
  rw [alookup_gba]
  simp [alookup]

lemma alookup_addToGroupMp (g : List (MpKey × List String))
    (p k : MpKey) (v : String) :
    alookup (addToGroupMp g p v) k
      = if p = k then some (((alookup g p).getD []) ++ [v])
        else alookup g k := by
  induction g with
  | nil =>
      by_cases h : p = k <;> simp [addToGroupMp, alookup, h]
  | cons a rest ih =>
      obtain ⟨k', s⟩ := a
      by_cases h1 : k' = p
      · subst h1
        by_cases h2 : k' = k
        · subst h2; simp [addToGroupMp, alookup]
        · simp [addToGroupMp, alookup, h2]
      · by_cases h2 : k' = k
        · subst h2
          have hp : ¬ p = k' := fun h => h1 h.symm
          simp [addToGroupMp, alookup, h1, hp]
        · simp [addToGroupMp, alookup, h1, h2, ih]

lemma alookup_gmp :
    ∀ (rows : List MpRow) (g : List (MpKey × List String)) (k : MpKey),
    alookup (gmp g rows) k
      = if hasKeyMp rows k || (alookup g k).isSome
        then some (((alookup g k).getD []) ++ ridsOf rows k)
        else none := by
  intro rows
  induction rows with
  | nil =>
      intro g k
      cases h : alookup g k <;> simp [gmp, hasKeyMp, ridsOf, h]
  | cons r rest ih =>
      intro g k
      simp only [gmp, hasKeyMp, ridsOf]
      rw [ih]
      rw [alookup_addToGroupMp]
      by_cases hpk : mpKey r = k
      · subst hpk
        simp
      · simp [hpk]

lemma keys_addToGroupMp_subset (g : List (MpKey × List String))
    (p k : MpKey) (v : String) :
    k ∈ (addToGroupMp g p v).map Prod.fst → k = p ∨ k ∈ g.map Prod.fst := by
  induction g with
  | nil => intro h; simpa [addToGroupMp] using h
  | cons a rest ih =>
      obtain ⟨k', s⟩ := a
      by_cases h1 : k' = p
      · intro h
        subst h1
        simp [addToGroupMp] at h ⊢
        tauto
      · intro h
        simp only [addToGroupMp, h1, if_neg, not_false_iff, List.map_cons,
          List.mem_cons] at h
        rcases h with h | h
        · exact Or.inr (by simp [h])
        · rcases ih h with h2 | h2
          · exact Or.inl h2
          · exact Or.inr (by simp [h2])

lemma keysNodup_addToGroupMp {g : List (MpKey × List String)}
    (h : (g.map Prod.fst).Nodup) (p : MpKey) (v : String) :
    ((addToGroupMp g p v).map Prod.fst).Nodup := by
  induction g with
  | nil => simp [addToGroupMp]
  | cons a rest ih =>
      obtain ⟨k', s⟩ := a
      simp only [List.map_cons, List.nodup_cons] at h
      by_cases h1 : k' = p
      · simpa [addToGroupMp, h1, List.nodup_cons] using h
      · simp only [addToGroupMp, h1, if_neg, not_false_iff, List.map_cons,
          List.nodup_cons]
        refine ⟨fun hm => ?_, ih h.2⟩
        rcases keys_addToGroupMp_subset rest p k' v hm with h2 | h2
        · exact h1 h2
        · exact h.1 h2

lemma keysNodup_gmp :
    ∀ (rows : List MpRow) (g : List (MpKey × List String)),
    (g.map Prod.fst).Nodup → ((gmp g rows).map Prod.fst).Nodup := by
  intro rows
  induction rows with
  | nil => intro g h; exact h
  | cons r rest ih =>
      intro g h
      exact ih _ (keysNodup_addToGroupMp h (mpKey r) r.identifier)

lemma hasKeyMp_false_ridsOf :
    ∀ (rows : List MpRow) (k : MpKey),
    hasKeyMp rows k = false → ridsOf rows k = [] := by
  intro rows
  induction rows with
  | nil => intro k _; rfl
  | cons r rest ih =>
      intro k h
      simp only [hasKeyMp, Bool.or_eq_false_iff, decide_eq_false_iff_not] at h
      simp [ridsOf, h.1, ih k h.2]

lemma alookup_group_by_mp (rows : List MpRow) (k : MpKey) :
    alookup (group_by_mp rows) k
      = if hasKeyMp rows k then some (ridsOf rows k) else none := by
  unfold group_by_mp
  rw [alookup_gmp]
  simp [alookup]

end GroupingLemmas

/-- Claim C2, as stated, is false for `find_duplicates_mp`: the polars
aggregation collects identifiers with multiplicity and never
de-duplicates them, so a key whose two raw rows carry the same
identifier `"X"` still produces a group (with `count = 2`), although the
key maps to a single distinct identifier. -/
theorem C2_counterexample :
    find_duplicates_mp
        [⟨"A", "1", "aP", "X"⟩, ⟨"A", "1", "aP", "X"⟩]
      = [(("A", "1", "aP"), ["X", "X"], 2)]
    ∧ (ridsOf [⟨"A", "1", "aP", "X"⟩, ⟨"A", "1", "aP", "X"⟩]
        ("A", "1", "aP")).dedup.length = 1 := by decide

/-- Claim C2 amended: `find_duplicates_mpds` emits a group for a key if
and only if the key maps to at least two distinct identifiers in the
input (an identifier repeated under the same key counts once, the
grouped values being sets), whereas `find_duplicates_mp` emits a group
for a key if and only if at least two raw input rows carry that key,
identifiers counted with multiplicity. -/
theorem C2_group_iff (data : List PEntry) (rows : List MpRow)
    (k : String) (q : MpKey) :
    ((∃ s, (k, s) ∈ find_duplicates_mpds data) ↔ 2 ≤ (idsOf data k).card)
  ∧ ((∃ vs c, (q, vs, c) ∈ find_duplicates_mp rows)
      ↔ 2 ≤ (ridsOf rows q).length) := by
  constructor
  · constructor
    · rintro ⟨s, hs⟩
      unfold find_duplicates_mpds fetch_duplicates at hs
      have hmem := List.mem_filter.1 hs
      have hlook : alookup (group_by_phase data) k = some s :=
        alookup_of_mem (keysNodup_gba data [] (by simp)) hmem.1
      rw [alookup_group_by_phase] at hlook
      by_cases hhp : hasPhase data k
      · rw [if_pos hhp] at hlook
        have hcard := of_decide_eq_true hmem.2
        rw [← Option.some_inj.1 hlook] at hcard
        exact hcard
      · rw [if_neg hhp] at hlook; exact absurd hlook (by simp)
    · intro hcard
      have hne : idsOf data k ≠ ∅ := by
        intro h0; rw [h0] at hcard; simp at hcard
      have hhp : hasPhase data k = true := by
        cases h : hasPhase data k
        · exact absurd (hasPhase_false_idsOf data k h) hne
        · rfl
      have hlook : alookup (group_by_phase data) k = some (idsOf data k) := by
        rw [alookup_group_by_phase, if_pos hhp]
      refine ⟨idsOf data k, ?_⟩
      unfold find_duplicates_mpds fetch_duplicates
      exact List.mem_filter.2 ⟨mem_of_alookup hlook, by simpa using hcard⟩
  · constructor
    · rintro ⟨vs, c, hm⟩
      unfold find_duplicates_mp at hm
      rcases List.mem_map.1 hm with ⟨pr, hpr, hpr2⟩
      have hmem := List.mem_filter.1 hpr
      have hq : pr.1 = q := congrArg Prod.fst hpr2
      have hvs : pr.2 = vs := congrArg (Prod.fst ∘ Prod.snd) hpr2
      have hlook : alookup (group_by_mp rows) q = some pr.2 := by
        rw [← hq]
        exact alookup_of_mem (keysNodup_gmp rows [] (by simp))
          (by rcases pr with ⟨a, b⟩; exact hmem.1)
      rw [alookup_group_by_mp] at hlook
      by_cases hhk : hasKeyMp rows q
      · rw [if_pos hhk] at hlook
        have hlen := of_decide_eq_true hmem.2
        have hr : ridsOf rows q = pr.2 := Option.some_inj.1 hlook
        rw [hr]
        exact hlen
      · rw [if_neg hhk] at hlook; exact absurd hlook (by simp)
    · intro hlen
      have hne : ridsOf rows q ≠ [] := by
        intro h0; rw [h0] at hlen; simp at hlen
      have hhk : hasKeyMp rows q = true := by
        cases h : hasKeyMp rows q
        · exact absurd (hasKeyMp_false_ridsOf rows q h) hne
        · rfl
      have hlook : alookup (group_by_mp rows) q = some (ridsOf rows q) := by
        rw [alookup_group_by_mp, if_pos hhk]
      refine ⟨ridsOf rows q, (ridsOf rows q).length, ?_⟩
      unfold find_duplicates_mp
      refine List.mem_map.2 ⟨(q, ridsOf rows q), ?_, rfl⟩
      exact List.mem_filter.2 ⟨mem_of_alookup hlook, by simpa using hlen⟩

/-- Claim C9: `group_by_phase` ignores every entry that lacks the
`phase` key or the `phase_id` key — the grouping of any input equals the
grouping of its complete entries — and an input consisting only of such
entries yields an empty duplicate list (and no error: the functions are
total). -/
theorem C9_incomplete_entries_skipped (data : List PEntry) :
    group_by_phase data
      = group_by_phase
          (data.filter fun e => e.phase.isSome && e.phase_id.isSome)
  ∧ ((∀ e ∈ data, e.phase = none ∨ e.phase_id = none) →
      find_duplicates_mpds data = []) := by
  have hgen : ∀ (d : List PEntry) (g : Grouped),
      gba g d = gba g (d.filter fun e => e.phase.isSome && e.phase_id.isSome) := by
    intro d
    induction d with
    | nil => intro g; rfl
    | cons e rest ih =>
        intro g
        cases hp : e.phase with
        | none => simpa [gba, hp, List.filter_cons] using ih g
        | some p =>
            cases hv : e.phase_id with
            | none => simpa [gba, hp, hv, List.filter_cons] using ih g
            | some v => simpa [gba, hp, hv, List.filter_cons] using ih _
  have hnil : ∀ (d : List PEntry) (g : Grouped),
      (∀ e ∈ d, e.phase = none ∨ e.phase_id = none) → gba g d = g := by
    intro d
    induction d with
    | nil => intro g _; rfl
    | cons e rest ih =>
        intro g h
        rcases h e (List.mem_cons_self e rest) with hp | hv
        · rw [show gba g (e :: rest) = gba g rest by simp [gba, hp]]
          exact ih g fun e' he' => h e' (List.mem_cons_of_mem e he')
        · cases hp : e.phase with
          | none =>
              rw [show gba g (e :: rest) = gba g rest by simp [gba, hp]]
              exact ih g fun e' he' => h e' (List.mem_cons_of_mem e he')
          | some p =>
              rw [show gba g (e :: rest) = gba g rest by simp [gba, hp, hv]]
              exact ih g fun e' he' => h e' (List.mem_cons_of_mem e he')
  constructor
  · exact hgen data []
  · intro h
    unfold find_duplicates_mpds group_by_phase
    rw [hnil data [] h]
    rfl

/-- Witness for C9: an input whose single entry lacks the `phase` key
produces no duplicate group. -/
theorem C9_incomplete_entries_skipped_witness :
    find_duplicates_mpds [⟨none, some 1⟩] = [] :=
  (C9_incomplete_entries_skipped [⟨none, some 1⟩]).2 (by decide)

/-- One accumulated row `row[:3]` = `(phase_id, formula, symmetry)`. -/
abbrev Row3 := String × String × String

/-- A Python value, as far as the comparison `classes == "unary"` needs:
a string or a list of strings. -/
inductive PyV where
  | s : String → PyV
  | l : List String → PyV

/-- Python `==` across these value shapes: values of different shapes
compare unequal (no exception). -/
def pyEq : PyV → PyV → Bool
  | PyV.s a, PyV.s b => a == b
  | PyV.l a, PyV.l b => a == b
  | _, _ => false

/-- The class list of `mpds_downloader`. -/
def classes : List String := ["unary", "binary", "ternary", "quaternary", "quinary"]

/-- What one request to the reference source looks like in the log:
either `{"elements": el, "classes": cl}` or `{"elements": joined}`. -/
inductive ReqKind where
  | elCls : String → String → ReqKind
  | elsOnly : String → ReqKind
deriving DecidableEq

/-- One logged request: its shape, the value of the client's
`chillouttime` back-off parameter at request time, and whether the
request succeeded. -/
structure ReqEvent where
  kind : ReqKind
  backoff : Nat
  ok : Bool
deriving DecidableEq

/-- Accumulation state of `mpds_downloader`: the `mpds_ids` list and the
request log. -/
structure DLState where
  mpds_ids : List Row3
  log : List ReqEvent
deriving DecidableEq

/-- `for row in ans: if row[:3] not in mpds_ids: mpds_ids.append(row[:3])`,
with the membership test against the list as already extended. -/
def addRows : List Row3 → List Row3 → List Row3
  | ids, [] => ids
  | ids, r :: rs => if r ∈ ids then addRows ids rs else addRows (ids ++ [r]) rs

/-- One `try`-guarded `(element, class)` request: `client.chillouttime`
is assigned the constant `2` immediately before the call, a failure is
caught, logged and skipped. -/
def runClsRequest (respC : String → String → Except String (List Row3))
    (st : DLState) (el cl : String) : DLState :=
  match respC el cl with
  | Except.ok ans =>
      ⟨addRows st.mpds_ids ans, st.log ++ [⟨ReqKind.elCls el cl, 2, true⟩]⟩
  | Except.error _ =>
      ⟨st.mpds_ids, st.log ++ [⟨ReqKind.elCls el cl, 2, false⟩]⟩

/-- The inner `for cl in classes` loop.  The guard is the source's
`if classes == "unary": if el not in unary: continue` — note the list
`classes`, not the loop variable `cl`, is compared with the string. -/
def phase1Classes (respC : String → String → Except String (List Row3))
    (unary : List String) (el : String) :
    List String → DLState → DLState
  | [], st => st
  | cl :: cls, st =>
      if pyEq (PyV.l classes) (PyV.s "unary") && !(unary.contains el) then
        phase1Classes respC unary el cls st
      else
        phase1Classes respC unary el cls (runClsRequest respC st el cl)

/-- The outer `for el in elements` loop of `mpds_downloader`. -/
def phase1Els (respC : String → String → Except String (List Row3))
    (unary : List String) : List String → DLState → DLState
  | [], st => st
  | el :: rest, st =>
      phase1Els respC unary rest (phase1Classes respC unary el classes st)

/-- Insertion into a sorted list of strings (helper for Python `sorted`). -/
def insSorted (s : String) : List String → List String
  | [] => [s]
  | x :: xs => if s ≤ x then s :: x :: xs else x :: insSorted s xs

/-- Python `sorted` on a list of element symbols. -/
def sortStrs (xs : List String) : List String := xs.foldr insSorted []

/-- The accumulation loop of `get_composition`: sorted element list per
formula, first occurrence kept. -/
def gcAux (elsOf : String → List String) :
    List String → List (List String) → List (List String)
  | [], comp => comp
  | f :: fs, comp =>
      gcAux elsOf fs
        (if sortStrs (elsOf f) ∈ comp then comp
         else comp ++ [sortStrs (elsOf f)])

/-- `get_composition` of scripts/mp_mpds_matcher.py, with the element
extraction `Composition(f).get_el_amt_dict().keys()` of the external
chemistry library abstracted as `elsOf`. -/
def get_composition (elsOf : String → List String) (formulae : List String)
    (num_el_from : Nat) : List (List String) :=
  (gcAux elsOf formulae []).filter fun i => decide (num_el_from ≤ i.length)

/-- `set(tuple(sorted(sublist)) for sublist in ...)` with a
deterministic first-occurrence order standing in for the unspecified
iteration order of a Python set. -/
def dedupBySorted : List (List String) → List (List String) → List (List String)
  | [], acc => acc
  | x :: xs, acc =>
      dedupBySorted xs
        (if sortStrs x ∈ acc then acc else acc ++ [sortStrs x])

/-- `"-".join(el)`. -/
def joinDash (xs : List String) : String := String.intercalate "-" xs

/-- The second request loop (`more_then_quinary_cat`): one
`{"elements": "-".join(el)}` request per combination, `chillouttime`
again assigned the constant `2` before each request, failure logged and
skipped. -/
def phase2 (respE : String → Except String (List Row3)) :
    List (List String) → DLState → DLState
  | [], st => st
  | el :: rest, st =>
      match respE (joinDash el) with
      | Except.ok ans =>
          phase2 respE rest
            ⟨addRows st.mpds_ids ans,
             st.log ++ [⟨ReqKind.elsOnly (joinDash el), 2, true⟩]⟩
      | Except.error _ =>
          phase2 respE rest
            ⟨st.mpds_ids, st.log ++ [⟨ReqKind.elsOnly (joinDash el), 2, false⟩]⟩

/-- `mpds_downloader` of scripts/mp_mpds_matcher.py, with the element
table, the element extraction and the two request shapes of the external
client abstracted as parameters.  Snapshot CSV writes are I/O only and
do not touch `mpds_ids` or the request sequence. -/
def mpds_downloader (elements : List String) (elsOf : String → List String)
    (respC : String → String → Except String (List Row3))
    (respE : String → Except String (List Row3))
    (formulae : List String) (unary : List String) : DLState :=
  phase2 respE
    (dedupBySorted ((get_composition elsOf formulae 6).map fun i => i.take 2) [])
    (phase1Els respC unary elements ⟨[], []⟩)

section DownloaderLemmas

lemma pyEq_classes_unary : pyEq (PyV.l classes) (PyV.s "unary") = false := rfl

lemma phase1Classes_unary_irrelevant
    (respC : String → String → Except String (List Row3)) :
    ∀ (cls : List String) (u1 u2 : List String) (el : String) (st : DLState),
    phase1Classes respC u1 el cls st = phase1Classes respC u2 el cls st := by
  intro cls
  induction cls with
  | nil => intro u1 u2 el st; rfl
  | cons cl cls ih =>
      intro u1 u2 el st
      simp only [phase1Classes, pyEq_classes_unary, Bool.false_and,
        Bool.false_eq_true, if_false]
      exact ih u1 u2 el _

lemma phase1Els_unary_irrelevant
    (respC : String → String → Except String (List Row3)) :
    ∀ (els : List String) (u1 u2 : List String) (st : DLState),
    phase1Els respC u1 els st = phase1Els respC u2 els st := by
  intro els
  induction els with
  | nil => intro u1 u2 st; rfl
  | cons el rest ih =>
      intro u1 u2 st
      simp only [phase1Els]
      rw [phase1Classes_unary_irrelevant respC classes u1 u2 el st]
      exact ih u1 u2 _

lemma phase1Classes_log
    (respC : String → String → Except String (List Row3))
    (u : List String) (el : String) :
    ∀ (cls : List String) (st : DLState),
    (phase1Classes respC u el cls st).log.map ReqEvent.kind
      = st.log.map ReqEvent.kind ++ cls.map (ReqKind.elCls el) := by
  intro cls
  induction cls with
  | nil => intro st; simp [phase1Classes]
  | cons cl cls ih =>
      intro st
      simp only [phase1Classes, pyEq_classes_unary, Bool.false_and,
        Bool.false_eq_true, if_false]
      rw [ih]
      unfold runClsRequest
      cases respC el cl <;> simp

lemma phase1Els_log
    (respC : String → String → Except String (List Row3))
    (u : List String) :
    ∀ (els : List String) (st : DLState),
    (phase1Els respC u els st).log.map ReqEvent.kind
      = st.log.map ReqEvent.kind
        ++ els.flatMap fun el => classes.map (ReqKind.elCls el) := by
  intro els
  induction els with
  | nil => intro st; simp [phase1Els]
  | cons el rest ih =>
      intro st
      simp only [phase1Els]
      rw [ih, phase1Classes_log]
      simp

lemma phase1Classes_backoff
    (respC : String → String → Except String (List Row3))
    (u : List String) (el : String) :
    ∀ (cls : List String) (st : DLState),
    (∀ e ∈ st.log, e.backoff = 2) →
    ∀ e ∈ (phase1Classes respC u el cls st).log, e.backoff = 2 := by
  intro cls
  induction cls with
  | nil => intro st h; exact h
  | cons cl cls ih =>
      intro st h
      simp only [phase1Classes, pyEq_classes_unary, Bool.false_and,
        Bool.false_eq_true, if_false]
      refine ih _ ?_
      unfold runClsRequest
      cases respC el cl with
      | ok ans =>
          intro e he
          rcases List.mem_append.1 he with he | he
          · exact h e he
          · rw [List.mem_singleton.1 he]
      | error _ =>
          intro e he
          rcases List.mem_append.1 he with he | he
          · exact h e he
          · rw [List.mem_singleton.1 he]

lemma phase1Els_backoff
    (respC : String → String → Except String (List Row3))
    (u : List String) :
    ∀ (els : List String) (st : DLState),
    (∀ e ∈ st.log, e.backoff = 2) →
    ∀ e ∈ (phase1Els respC u els st).log, e.backoff = 2 := by
  intro els
  induction els with
  | nil => intro st h; exact h
  | cons el rest ih =>
      intro st h
      exact ih _ (phase1Classes_backoff respC u el classes st h)

lemma phase2_backoff (respE : String → Except String (List Row3)) :
    ∀ (cat : List (List String)) (st : DLState),
    (∀ e ∈ st.log, e.backoff = 2) →
    ∀ e ∈ (phase2 respE cat st).log, e.backoff = 2 := by
  intro cat
  induction cat with
  | nil => intro st h; exact h
  | cons el rest ih =>
      intro st h
      simp only [phase2]
      cases respE (joinDash el) with
      | ok ans =>
          refine ih _ ?_
          intro e he
          rcases List.mem_append.1 he with he | he
          · exact h e he
          · rw [List.mem_singleton.1 he]
      | error _ =>
          refine ih _ ?_
          intro e he
          rcases List.mem_append.1 he with he | he
          · exact h e he
          · rw [List.mem_singleton.1 he]

end DownloaderLemmas

/-- Claim C10: `mpds_downloader` is insensitive to its `unary` argument.
The guard `if classes == "unary":` compares the class list with a
string, which is always false in Python, so the `continue` for elements
outside `unary` is dead code: the accumulated record list, the whole
request log, and in particular the `(element, class)` request sequence —
one request per element for each of the five classes, elements absent
from `unary` included — are identical for any two `unary` values. -/
theorem C10_unary_independence (elements : List String)
    (elsOf : String → List String)
    (respC : String → String → Except String (List Row3))
    (respE : String → Except String (List Row3))
    (formulae : List String) (u1 u2 : List String) :
    mpds_downloader elements elsOf respC respE formulae u1
      = mpds_downloader elements elsOf respC respE formulae u2
  ∧ (phase1Els respC u1 elements ⟨[], []⟩).log.map ReqEvent.kind
      = elements.flatMap fun el => classes.map (ReqKind.elCls el) := by
  constructor
  · unfold mpds_downloader
    rw [phase1Els_unary_irrelevant respC elements u1 u2]
  · rw [phase1Els_log]
    simp

/-- Claim C8, as stated, is false: `chillouttime` is assigned the
constant `2` before every request and never increased.  Two successive
invocations of the downloader on a single element with an always-failing
source issue two failing requests to the same partition
`("H", "unary")`; the recorded back-off is `2` both times, and the
retry's back-off is not strictly greater than its failed predecessor's
(`¬ 2 < 2`). -/
theorem C8_counterexample :
    (((mpds_downloader ["H"] (fun _ => []) (fun _ _ => Except.error "err")
          (fun _ => Except.error "err") [] []).log
        ++ (mpds_downloader ["H"] (fun _ => []) (fun _ _ => Except.error "err")
          (fun _ => Except.error "err") [] []).log).filter
        (fun e => decide (e.kind = ReqKind.elCls "H" "unary"))).map
        (fun e => (e.backoff, e.ok))
      = [(2, false), (2, false)]
    ∧ ¬ ((2 : Nat) < 2) := by
  exact ⟨by decide, by decide⟩

/-- Claim C8 amended: the back-off parameter is assigned the constant
`2` before every request of `mpds_downloader`, so across repeated
failures for the same partition it is non-decreasing only trivially —
every logged request carries back-off `2` — and never strictly
increases after a failure. -/
theorem C8_backoff_constant (elements : List String)
    (elsOf : String → List String)
    (respC : String → String → Except String (List Row3))
    (respE : String → Except String (List Row3))
    (formulae : List String) (unary : List String) (e : ReqEvent)
    (he : e ∈ (mpds_downloader elements elsOf respC respE formulae unary).log) :
    e.backoff = 2 := by
  unfold mpds_downloader at he
  exact phase2_backoff respE _ _
    (phase1Els_backoff respC unary elements ⟨[], []⟩ (by simp)) e he

/-- Witness for C8 (amended): the failed `("H", "unary")` request of the
concrete run above indeed carries back-off `2`. -/
theorem C8_backoff_constant_witness :
    (⟨ReqKind.elCls "H" "unary", 2, false⟩ : ReqEvent).backoff = 2 :=
  C8_backoff_constant ["H"] (fun _ => []) (fun _ _ => Except.error "err")
    (fun _ => Except.error "err") [] [] ⟨ReqKind.elCls "H" "unary", 2, false⟩
    (by decide)

/-- State of one on-disk snapshot artifact: absent, present but
unloadable (the reader raises, which the bare `except:` catches), or
present and well-formed with its data. -/
inductive Artifact (α : Type) where
  | absent : Artifact α
  | malformed : Artifact α
  | valid : α → Artifact α
deriving DecidableEq

/-- The guarded read (`try: ... read ... except:`): only a well-formed
artifact yields data. -/
def Artifact.read {α : Type} : Artifact α → Option α
  | Artifact.valid a => some a
  | _ => none

/-- One row of the primary-catalog dump `all_id_mp.json`:
`(identifier, formula, symmetry)`, all already stringified. -/
abbrev MpIdRec := String × String × String

/-- `mp_downloader` of scripts/mp_mpds_matcher.py over an explicit disk
state: if `all_id_mp.json` loads, return it with zero external
requests; otherwise issue the single bulk `summary.search` request
(`remote` is its stringified row list), write the artifact and return
the fresh data.  Result: `(dataframe, request count, artifact after)`. -/
def mp_downloader (art : Artifact (List MpIdRec)) (remote : List MpIdRec) :
    List MpIdRec × Nat × Artifact (List MpIdRec) :=
  match art.read with
  | some dfrm => (dfrm, 0, art)
  | none => (remote, 1, Artifact.valid remote)

/-- Result of one `id_mp_mpds_matcher` run: the returned dataframe, the
request counts of the primary-catalog fetch and of the matching step,
and both artifacts after the run. -/
structure RunResult where
  dfrm : List Entry
  requestsAll : Nat
  requestsMatch : Nat
  artAllOut : Artifact (List MpIdRec)
  artMatchOut : Artifact (List Entry)

/-- `id_mp_mpds_matcher` of scripts/mp_mpds_matcher.py: run
`mp_downloader`, then try to load `id_match.json`; on success return it
without invoking the matcher (zero matching-side requests), otherwise
re-read `all_id_mp.json` (just written), run the matcher — abstracted as
`doMatch`, returning its dataframe and its external request count — and
write the result artifact. -/
def id_mp_mpds_matcher (artAll : Artifact (List MpIdRec))
    (artMatch : Artifact (List Entry)) (remote : List MpIdRec)
    (doMatch : List MpIdRec → List Entry × Nat) : RunResult :=
  match artMatch.read with
  | some dfrm =>
      ⟨dfrm, (mp_downloader artAll remote).2.1, 0,
        (mp_downloader artAll remote).2.2, artMatch⟩
  | none =>
      ⟨(doMatch (((mp_downloader artAll remote).2.2).read.getD [])).1,
        (mp_downloader artAll remote).2.1,
        (doMatch (((mp_downloader artAll remote).2.2).read.getD [])).2,
        (mp_downloader artAll remote).2.2,
        Artifact.valid
          (doMatch (((mp_downloader artAll remote).2.2).read.getD [])).1⟩

/-- The `else` branch of `matcher_mp_mpds` before the join: try to load
`mpds_IDs_ready.csv`; on success use it with zero reference-side
requests, otherwise fall back to the downloaded data (`downloaded`
abstracts `mpds_downloader`'s rows and request count). -/
def matcher_csv_branch (csv : Artifact (List Row3))
    (downloaded : List Row3 × Nat) : List Row3 × Nat :=
  match csv.read with
  | some d => (d, 0)
  | none => downloaded

/-- Claim C6: a valid snapshot short-circuits the pipeline.  With
`all_id_mp.json` valid, `mp_downloader` issues zero requests and returns
the stored rows unchanged; when it is absent, the data is regenerated
from scratch from the source and the artifact rewritten.  With
`id_match.json` valid, `id_mp_mpds_matcher` returns the stored match
table and the matching step issues zero requests; when it is absent, the
match table is recomputed from the freshly ensured primary dump. -/
theorem C6_valid_snapshot_zero_requests (remote df : List MpIdRec)
    (artAll : Artifact (List MpIdRec)) (m : List Entry)
    (doMatch : List MpIdRec → List Entry × Nat) :
    mp_downloader (Artifact.valid df) remote = (df, 0, Artifact.valid df)
  ∧ mp_downloader Artifact.absent remote = (remote, 1, Artifact.valid remote)
  ∧ (id_mp_mpds_matcher artAll (Artifact.valid m) remote doMatch).dfrm = m
  ∧ (id_mp_mpds_matcher artAll (Artifact.valid m) remote doMatch).requestsMatch = 0
  ∧ (id_mp_mpds_matcher (Artifact.valid df) Artifact.absent remote doMatch).dfrm
      = (doMatch df).1
  ∧ (id_mp_mpds_matcher (Artifact.valid df) Artifact.absent remote doMatch).requestsMatch
      = (doMatch df).2 :=
  ⟨rfl, rfl, rfl, rfl, rfl, rfl⟩

/-- Claim C7: a malformed artifact is treated exactly like an absent
one, for the primary dump read, the reference CSV read and the match
table read alike: the run results are definitionally equal, the
artifact is regenerated in full, and no error escapes (the embedded
readers are total, mirroring the bare `except:` that swallows the
reader's failure). -/
theorem C7_malformed_equals_absent (remote : List MpIdRec)
    (downloaded : List Row3 × Nat) (artAll : Artifact (List MpIdRec))
    (doMatch : List MpIdRec → List Entry × Nat) :
    mp_downloader Artifact.malformed remote
      = mp_downloader Artifact.absent remote
  ∧ matcher_csv_branch Artifact.malformed downloaded
      = matcher_csv_branch Artifact.absent downloaded
  ∧ id_mp_mpds_matcher artAll Artifact.malformed remote doMatch
      = id_mp_mpds_matcher artAll Artifact.absent remote doMatch :=
  ⟨rfl, rfl, rfl⟩

end DistinctPhases
